import Mathlib

/-!
# Argon2id hasher of `hash/hasher_argon2.go`

A shallow embedding of `toKB`, `Argon2.Generate` and `Argon2.Understands`, with the
library calls the hasher makes (`crypto/rand`, `argon2.IDKey`, `fmt.Fprintf`,
`base64.RawStdEncoding`) and the record grammar it writes.
-/

namespace Kratos.Hash

/-! ## Data model -/

/-- One octet of a Go byte slice. -/
abbrev Byte := Fin 256

/-- Go error values: an opaque error with its message, or an error wrapped by
`errors.WithStack`. -/
inductive GoError where
  | mk (msg : String)
  | withStack (cause : GoError)
  deriving DecidableEq, Repr

/-- The fields of `config.Argon2` that `Generate` reads. `Memory` is a
`bytesize.ByteSize` holding a whole number of bytes; the other fields are unsigned
machine integers, which `Generate` only copies. -/
structure Argon2Config where
  Memory : Nat
  Iterations : Nat
  Parallelism : Nat
  SaltLength : Nat
  KeyLength : Nat
  deriving DecidableEq, Repr

/-- The configuration provider `Argon2Configuration`: what
`Config().HasherArgon2(ctx)` answers. -/
structure Argon2Configuration where
  HasherArgon2 : Argon2Config
  deriving DecidableEq, Repr

/-- The hasher `type Argon2 struct { c Argon2Configuration }`. -/
structure Argon2 where
  c : Argon2Configuration
  deriving DecidableEq, Repr

/-- Constructor `NewHasherArgon2`. -/
def NewHasherArgon2 (c : Argon2Configuration) : Argon2 := ⟨c⟩

/-- The unit `bytesize.KB`. -/
def KB : Nat := 1024

/-- The constant `argon2.Version`. -/
def Version : Nat := 0x13

/-- Source `toKB`: `uint32(mem / bytesize.KB)`, the quotient truncated and narrowed
to 32 bits. -/
def toKB (mem : Nat) : Nat := (mem / KB) % 2 ^ 32

/-! ## Formatting: `%d`, `%s` and unpadded base64 -/

/-- The decimal digit character of `d`. -/
def digitChar (d : Nat) : Char := Char.ofNat (48 + d)

/-- Digit loop of the `%d` verb: peel the low digit until the value is below ten. -/
def decAux : Nat → Nat → List Char → List Char
  | 0, _, acc => acc
  | fuel + 1, n, acc =>
    if n < 10 then digitChar n :: acc
    else decAux fuel (n / 10) (digitChar (n % 10) :: acc)

/-- Decimal rendering of an unsigned integer, as `%d` prints it. -/
def dec (n : Nat) : List Char := decAux (n + 1) n []

/-- The alphabet of `base64.StdEncoding`. -/
def encodeStd : List Char :=
  "ABCDEFGHIJKLMNOPQRSTUVWXYZabcdefghijklmnopqrstuvwxyz0123456789+/".toList

/-- The character of the 6-bit value `v`. -/
def b64char (v : Nat) : Char := encodeStd.getD v 'A'

/-- The call `base64.RawStdEncoding.EncodeToString`: three octets give four characters,
a final group of two gives three, a final single octet gives two, no padding. -/
def EncodeToString : List Byte → List Char
  | a :: b :: c :: rest =>
    b64char (a.val / 4) :: b64char (a.val % 4 * 16 + b.val / 16) ::
      b64char (b.val % 16 * 4 + c.val / 64) :: b64char (c.val % 64) :: EncodeToString rest
  | [a, b] => [b64char (a.val / 4), b64char (a.val % 4 * 16 + b.val / 16), b64char (b.val % 16 * 4)]
  | [a] => [b64char (a.val / 4), b64char (a.val % 4 * 16)]
  | [] => []

/-- An operand of a formatting call. -/
inductive Arg where
  | int (n : Nat)
  | str (s : List Char)
  deriving DecidableEq, Repr

/-- The formatting of `fmt.Fprintf` for the verbs the hasher uses: `%d` consumes an
integer operand, `%s` a string operand, every other character is copied. -/
def sprintf : List Char → List Arg → List Char
  | [], _ => []
  | '%' :: 'd' :: rest, Arg.int n :: args => dec n ++ sprintf rest args
  | '%' :: 's' :: rest, Arg.str s :: args => s ++ sprintf rest args
  | c :: rest, args => c :: sprintf rest args

/-- The format string of `Generate`. -/
def recordFormat : List Char := "$argon2id$v=%d$m=%d,t=%d,p=%d$%s$%s".toList

/-- An `io.Writer` seen from `Fprintf`: from the bytes already held and the bytes to
write, the bytes held afterwards, the count written and the error. -/
abbrev Writer := List Char → List Char → List Char × Nat × Option GoError

/-- The writer `bytes.Buffer`: `Write` appends and its error is always nil. -/
def bytesBuffer : Writer := fun b p => (b ++ p, p.length, none)

/-- The call `fmt.Fprintf(&b, format, args...)`: format, then one `Write`. -/
def Fprintf (w : Writer) (b : List Char) (format : List Char) (args : List Arg) :
    List Char × Nat × Option GoError :=
  w b (sprintf format args)

/-! ## The environment of one `Generate` call -/

/-- The arguments of one `argon2.IDKey` call. -/
structure IDKeyCall where
  password : List Byte
  salt : List Byte
  time : Nat
  memory : Nat
  threads : Nat
  keyLen : Nat
  deriving DecidableEq, Repr

/-- What `Generate` calls outside the package: the secure random source, whose answer
to this call is an error or the octets it delivers, and the derivation
`argon2.IDKey(password, salt, time, memory, threads, keyLen)`. -/
structure Env where
  rand : Except GoError (Nat → Byte)
  IDKey : List Byte → List Byte → Nat → Nat → Nat → Nat → List Byte

/-- The allocation `make([]byte, n)`. -/
def make (n : Nat) : List Byte := List.replicate n 0

/-- The call `rand.Read(buf)`: on success every position of `buf` is overwritten, on
failure the error is returned. -/
def randRead (src : Except GoError (Nat → Byte)) (buf : List Byte) :
    List Byte × Option GoError :=
  match src with
  | .error e => (buf, some e)
  | .ok f => ((List.range buf.length).map f, none)

/-- The result of a `Generate` call: the returned pair `([]byte, error)`, and what the
call did on the way: the buffer lengths handed to `rand.Read`, the `argon2.IDKey`
calls made, and the content of the local buffer `b` at return. -/
structure Outcome where
  record : Option (List Char)
  err : Option GoError
  reads : List Nat
  derivations : List IDKeyCall
  buffer : List Char
  deriving DecidableEq, Repr

/-- Source `Argon2.Generate`, over any writer in place of the local buffer. The tracing
span only observes the call and is left out. -/
def GenerateW (w : Writer) (env : Env) (h : Argon2) (password : List Byte) : Outcome :=
  let p := h.c.HasherArgon2
  match randRead env.rand (make p.SaltLength) with
  | (_, some err) => ⟨none, some err, [p.SaltLength], [], []⟩
  | (salt, none) =>
    let hash := env.IDKey password salt p.Iterations (toKB p.Memory) p.Parallelism p.KeyLength
    let calls := [IDKeyCall.mk password salt p.Iterations (toKB p.Memory) p.Parallelism p.KeyLength]
    match Fprintf w [] recordFormat
        [Arg.int Version, Arg.int (toKB p.Memory), Arg.int p.Iterations, Arg.int p.Parallelism,
          Arg.str (EncodeToString salt), Arg.str (EncodeToString hash)] with
    | (b, _, some err) => ⟨none, some (GoError.withStack err), [p.SaltLength], calls, b⟩
    | (b, _, none) => ⟨some b, none, [p.SaltLength], calls, b⟩

/-- Source `Argon2.Generate`: the buffer is a `bytes.Buffer`. -/
def Generate (env : Env) (h : Argon2) (password : List Byte) : Outcome :=
  GenerateW bytesBuffer env h password

/-- The salt a successful random source delivers for a buffer of `n` octets. -/
def drawnSalt (f : Nat → Byte) (n : Nat) : List Byte := (List.range n).map f

/-- The text of the parameter section with the given values. -/
def paramsText (m t p : Nat) : List Char :=
  "m=".toList ++ dec m ++ ",t=".toList ++ dec t ++ ",p=".toList ++ dec p

/-- The text of a record with the given fields. -/
def recordText (m t p : Nat) (salt key : List Byte) : List Char :=
  "$argon2id$v=19$m=".toList ++ dec m ++ ",t=".toList ++ dec t ++ ",p=".toList ++ dec p ++
    "$".toList ++ EncodeToString salt ++ "$".toList ++ EncodeToString key

/-! ## The record grammar: decoding and recognition -/

/-- The pieces of `s` between the occurrences of `sep`. -/
def splitOn (sep : Char) : List Char → List (List Char)
  | [] => [[]]
  | c :: cs =>
    if c = sep then [] :: splitOn sep cs
    else (c :: (splitOn sep cs).headD []) :: (splitOn sep cs).tail

/-- The pieces joined again with `sep` between neighbours. -/
def joinOn (sep : Char) : List (List Char) → List Char
  | [] => []
  | [x] => x
  | x :: y :: ys => x ++ sep :: joinOn sep (y :: ys)

/-- A non-empty run of decimal digits. -/
def IsDigits (s : List Char) : Prop := s ≠ [] ∧ ∀ c ∈ s, c.isDigit = true

/-- An integer literal: digits, or a minus sign and digits. -/
def IsIntLit (s : List Char) : Prop := IsDigits s ∨ ∃ d, s = '-' :: d ∧ IsDigits d

/-- A payload segment of the grammar: non-empty, made of characters of the standard
alphabet, of a length that unpadded base64 can have. -/
def IsPayload (s : List Char) : Prop :=
  s ≠ [] ∧ (∀ c ∈ s, c ∈ encodeStd) ∧ s.length % 4 ≠ 1

/-- The canonical structure of a record: the tag `argon2id`, a version, the `m=,t=,p=`
parameter section and two payload segments, joined by `$`. -/
def IsCanonical (c : List Char) : Prop :=
  ∃ v m t p s k, IsIntLit v ∧ IsDigits m ∧ IsDigits t ∧ IsDigits p ∧ IsPayload s ∧
    IsPayload k ∧
    c = "$argon2id$v=".toList ++ v ++ "$m=".toList ++ m ++ ",t=".toList ++ t ++
      ",p=".toList ++ p ++ "$".toList ++ s ++ "$".toList ++ k

/-- The value of a decimal digit character. -/
def digitVal (c : Char) : Option Nat :=
  if c.isDigit then some (c.toNat - 48) else none

/-- Value of a run of decimal digits read after the value `acc`. -/
def parseDigits : List Char → Nat → Option Nat
  | [], acc => some acc
  | c :: cs, acc =>
    match digitVal c with
    | none => none
    | some d => parseDigits cs (acc * 10 + d)

/-- An unsigned integer: one or more decimal digits. -/
def parseUint (s : List Char) : Option Nat :=
  match s with
  | [] => none
  | _ :: _ => parseDigits s 0

/-- An integer: an unsigned integer, or one after a minus sign. -/
def parseInt (s : List Char) : Option Int :=
  match s with
  | '-' :: d => (parseUint d).map (fun n => Int.negOfNat n)
  | _ => (parseUint s).map (fun n => Int.ofNat n)

/-- What follows the leading `tag` in `s`, when `s` starts with it. -/
def after : List Char → List Char → Option (List Char)
  | [], s => some s
  | _ :: _, [] => none
  | t :: ts, c :: cs => if t = c then after ts cs else none

/-- The 6-bit value of a character of the standard alphabet. -/
def b64val (c : Char) : Option Nat :=
  if encodeStd.indexOf c < 64 then some (encodeStd.indexOf c) else none

/-- Decoding of unpadded standard base64: four characters give three octets, a final
group of three gives two, a final group of two gives one; a final single character
or a character outside the alphabet is an error. -/
def DecodeString : List Char → Option (List Byte)
  | c0 :: c1 :: c2 :: c3 :: rest =>
    match b64val c0, b64val c1, b64val c2, b64val c3, DecodeString rest with
    | some v0, some v1, some v2, some v3, some tl =>
      some (Fin.ofNat (v0 * 4 + v1 / 16) :: Fin.ofNat (v1 % 16 * 16 + v2 / 4) ::
        Fin.ofNat (v2 % 4 * 64 + v3) :: tl)
    | _, _, _, _, _ => none
  | [c0, c1, c2] =>
    match b64val c0, b64val c1, b64val c2 with
    | some v0, some v1, some v2 =>
      some [Fin.ofNat (v0 * 4 + v1 / 16), Fin.ofNat (v1 % 16 * 16 + v2 / 4)]
    | _, _, _ => none
  | [c0, c1] =>
    match b64val c0, b64val c1 with
    | some v0, some v1 => some [Fin.ofNat (v0 * 4 + v1 / 16)]
    | _, _ => none
  | [_] => none
  | [] => some []

/-- A payload segment: present, non-empty and validly encoded. -/
def parsePayload (s : List Char) : Option (List Byte) :=
  match s with
  | [] => none
  | _ :: _ => DecodeString s

/-- The fields read from a record. -/
structure Fields where
  version : Int
  m : Nat
  t : Nat
  p : Nat
  salt : List Byte
  key : List Byte
  deriving DecidableEq, Repr

/-- The parameter section `m=<uint>,t=<uint>,p=<uint>`. -/
def parseParams (s : List Char) : Option (Nat × Nat × Nat) :=
  match splitOn ',' s with
  | [a, b, c] =>
    match (after "m=".toList a).bind parseUint, (after "t=".toList b).bind parseUint,
        (after "p=".toList c).bind parseUint with
    | some m, some t, some p => some (m, t, p)
    | _, _, _ => none
  | _ => none

/-- Modelled from the spec: the record grammar of the decoding step (section 4.2), which
is not part of `hasher_argon2.go`: split on `$`, exactly the expected segments
after the empty leading piece, the tag `argon2id`, an integer version, the
`m=,t=,p=` triplet as unsigned integers, two non-empty base64 payloads. -/
def parseRecord (s : List Char) : Option Fields :=
  match splitOn '$' s with
  | [lead, tag, ver, params, salt, key] =>
    if lead = [] ∧ tag = "argon2id".toList then
      match (after "v=".toList ver).bind parseInt, parseParams params,
          parsePayload salt, parsePayload key with
      | some v, some (m, t, p), some s, some k => some ⟨v, m, t, p, s, k⟩
      | _, _, _, _ => none
    else none
  | _ => none

/-- The error kinds of decoding, after `ErrInvalidHash` and `ErrIncompatibleVersion`. -/
inductive DecodeError where
  | ErrInvalidHash
  | ErrIncompatibleVersion
  deriving DecidableEq, Repr

/-- Modelled from the spec: the decoding step of section 4.2, which is not part of
`hasher_argon2.go`: any structural deviation is `ErrInvalidHash`, a well-formed
record of another version is `ErrIncompatibleVersion`. -/
def decodeArgon2idHash (s : List Char) : Except DecodeError Fields :=
  match parseRecord s with
  | none => .error .ErrInvalidHash
  | some f => if f.version = (Version : Int) then .ok f else .error .ErrIncompatibleVersion

/-- Modelled from the spec: the recogniser `IsArgon2idHash`, which is not part of
`hasher_argon2.go`: true exactly for a candidate with the canonical structure of the
scheme (section 4.1), whatever its version and parameter values. -/
def IsArgon2idHash (hash : List Char) : Bool := (parseRecord hash).isSome

/-- Source `Argon2.Understands`. -/
def Understands (_h : Argon2) (hash : List Char) : Bool := IsArgon2idHash hash

/-! ## Sample inputs -/

/-- A stand-in derivation for concrete runs: `keyLen` zero octets. -/
def zeroKey : List Byte → List Byte → Nat → Nat → Nat → Nat → List Byte :=
  fun _ _ _ _ _ keyLen => List.replicate keyLen 0

/-- A random source delivering the octets 0, 1, 2, ... -/
def countingRand : Nat → Byte := fun i => Fin.ofNat i

/-- A random source delivering the octets 1, 2, 3, ... -/
def shiftedRand : Nat → Byte := fun i => Fin.ofNat (i + 1)

/-- An environment whose random source succeeds. -/
def sampleEnv : Env := ⟨.ok countingRand, zeroKey⟩

/-- An environment whose random source fails. -/
def failingEnv : Env := ⟨.error (GoError.mk "entropy unavailable"), zeroKey⟩

/-- A writer that takes the first three bytes and then fails. -/
def failingWriter : Writer := fun b p => (b ++ p.take 3, 3, some (GoError.mk "short write"))

/-- The parameters memory 19 MiB, 2 iterations, parallelism 1, 16 salt octets, 32 key
octets. -/
def sampleConfig : Argon2Config := ⟨19 * 1024 * 1024, 2, 1, 16, 32⟩

/-- A hasher configured with `sampleConfig`. -/
def sampleHasher : Argon2 := NewHasherArgon2 ⟨sampleConfig⟩

/-- A hasher whose memory size is below one kibibyte. -/
def smallMemoryHasher : Argon2 := NewHasherArgon2 ⟨⟨512, 1, 1, 16, 32⟩⟩

/-- An environment whose random source delivers other octets than `sampleEnv`. -/
def shiftedEnv : Env := ⟨.ok shiftedRand, zeroKey⟩

/-- A hasher configured with 64 MiB, 3 iterations, parallelism 4, 16 salt octets and
64 key octets. -/
def otherHasher : Argon2 := NewHasherArgon2 ⟨⟨64 * 1024 * 1024, 3, 4, 16, 64⟩⟩

/-! ## Decimal rendering -/

theorem decAux_acc (fuel n : Nat) (acc : List Char) :
    decAux fuel n acc = decAux fuel n [] ++ acc := by
  induction fuel generalizing n acc with
  | zero => simp [decAux]
  | succ k ih =>
    simp only [decAux]
    split
    · simp
    · rw [ih (n / 10) (digitChar (n % 10) :: acc), ih (n / 10) [digitChar (n % 10)]]
      simp

theorem decAux_fuel (fuel fuel2 n : Nat) (acc : List Char) (h1 : n < fuel) (h2 : n < fuel2) :
    decAux fuel n acc = decAux fuel2 n acc := by
  induction fuel generalizing fuel2 n acc with
  | zero => omega
  | succ k ih =>
    cases fuel2 with
    | zero => omega
    | succ k2 =>
      simp only [decAux]
      split
      · rfl
      · exact ih k2 (n / 10) _ (by omega) (by omega)

theorem dec_lt (n : Nat) (h : n < 10) : dec n = [digitChar n] := by
  simp [dec, decAux, h]

theorem dec_ge (n : Nat) (h : 10 ≤ n) : dec n = dec (n / 10) ++ [digitChar (n % 10)] := by
  have h1 : ¬ n < 10 := by omega
  rw [dec, decAux, if_neg h1, decAux_acc, dec]
  rw [decAux_fuel n (n / 10 + 1) (n / 10) [] (by omega) (by omega)]

theorem digitVal_digitChar : ∀ d, d < 10 → digitVal (digitChar d) = some d := by decide

theorem parseDigits_append (a b : List Char) (acc : Nat) :
    parseDigits (a ++ b) acc = (parseDigits a acc).bind (parseDigits b) := by
  induction a generalizing acc with
  | nil => simp [parseDigits]
  | cons c cs ih =>
    simp only [List.cons_append, parseDigits]
    cases digitVal c with
    | none => simp
    | some d => simpa using ih (acc * 10 + d)

theorem parseDigits_dec (n : Nat) : parseDigits (dec n) 0 = some n := by
  induction n using Nat.strong_induction_on with
  | _ n ih =>
    by_cases h : n < 10
    · rw [dec_lt n h]
      simp [parseDigits, digitVal_digitChar n h]
    · rw [dec_ge n (by omega), parseDigits_append, ih (n / 10) (by omega)]
      simp only [Option.some_bind, parseDigits, digitVal_digitChar (n % 10) (by omega)]
      congr 1
      omega

theorem dec_ne_nil (n : Nat) : dec n ≠ [] := by
  by_cases h : n < 10
  · rw [dec_lt n h]; simp
  · rw [dec_ge n (by omega)]; simp

theorem parseUint_dec (n : Nat) : parseUint (dec n) = some n := by
  have h := parseDigits_dec n
  have h2 := dec_ne_nil n
  unfold parseUint
  split
  · contradiction
  · exact h

theorem dec_injective (a b : Nat) (h : dec a = dec b) : a = b := by
  have ha := parseUint_dec a
  rw [h, parseUint_dec b] at ha
  exact (Option.some.inj ha).symm

/-- Every character of a decimal rendering is a decimal digit. -/
theorem dec_digits (n : Nat) : ∀ c ∈ dec n, ∃ d, d < 10 ∧ c = digitChar d := by
  induction n using Nat.strong_induction_on with
  | _ n ih =>
    by_cases h : n < 10
    · rw [dec_lt n h]
      intro c hc
      exact ⟨n, h, by simpa using hc⟩
    · rw [dec_ge n (by omega)]
      intro c hc
      rcases List.mem_append.mp hc with hc | hc
      · exact ih (n / 10) (by omega) c hc
      · exact ⟨n % 10, by omega, by simpa using hc⟩

/-! ## What `Generate` returns -/

theorem sprintf_record (v m t p : Nat) (s k : List Char) :
    sprintf recordFormat [Arg.int v, Arg.int m, Arg.int t, Arg.int p, Arg.str s, Arg.str k] =
      "$argon2id$v=".toList ++ dec v ++ "$m=".toList ++ dec m ++ ",t=".toList ++ dec t ++
        ",p=".toList ++ dec p ++ "$".toList ++ s ++ "$".toList ++ k := by
  simp [recordFormat, sprintf]

theorem dec_Version : dec Version = "19".toList := by decide

theorem Generate_ok (env : Env) (h : Argon2) (password : List Byte) (f : Nat → Byte)
    (hr : env.rand = .ok f) :
    Generate env h password =
      ⟨some (recordText (toKB h.c.HasherArgon2.Memory) h.c.HasherArgon2.Iterations
          h.c.HasherArgon2.Parallelism (drawnSalt f h.c.HasherArgon2.SaltLength)
          (env.IDKey password (drawnSalt f h.c.HasherArgon2.SaltLength)
            h.c.HasherArgon2.Iterations (toKB h.c.HasherArgon2.Memory)
            h.c.HasherArgon2.Parallelism h.c.HasherArgon2.KeyLength)),
        none, [h.c.HasherArgon2.SaltLength],
        [⟨password, drawnSalt f h.c.HasherArgon2.SaltLength, h.c.HasherArgon2.Iterations,
          toKB h.c.HasherArgon2.Memory, h.c.HasherArgon2.Parallelism,
          h.c.HasherArgon2.KeyLength⟩],
        recordText (toKB h.c.HasherArgon2.Memory) h.c.HasherArgon2.Iterations
          h.c.HasherArgon2.Parallelism (drawnSalt f h.c.HasherArgon2.SaltLength)
          (env.IDKey password (drawnSalt f h.c.HasherArgon2.SaltLength)
            h.c.HasherArgon2.Iterations (toKB h.c.HasherArgon2.Memory)
            h.c.HasherArgon2.Parallelism h.c.HasherArgon2.KeyLength)⟩ := by
  simp only [Generate, GenerateW, randRead, hr, Fprintf, bytesBuffer, sprintf_record,
    dec_Version, make, List.length_replicate, drawnSalt, recordText]
  simp

/-! ## Unpadded base64 -/

theorem b64val_b64char : ∀ v, v < 64 → b64val (b64char v) = some v := by decide

theorem b64char_mem : ∀ v, v < 64 → b64char v ∈ encodeStd := by decide

theorem byte_ofNat (a : Byte) (n : Nat) (h : n = a.val) : (Fin.ofNat n : Byte) = a := by
  apply Fin.ext
  have := a.isLt
  simp only [Fin.ofNat, h]
  omega

theorem DecodeString_EncodeToString (bs : List Byte) :
    DecodeString (EncodeToString bs) = some bs := by
  induction bs using EncodeToString.induct with
  | case1 a b c rest ih =>
    have ha := a.isLt
    have hb := b.isLt
    have hc := c.isLt
    simp only [EncodeToString, DecodeString, ih,
      b64val_b64char (a.val / 4) (by omega),
      b64val_b64char (a.val % 4 * 16 + b.val / 16) (by omega),
      b64val_b64char (b.val % 16 * 4 + c.val / 64) (by omega),
      b64val_b64char (c.val % 64) (by omega)]
    rw [byte_ofNat a _ (by omega), byte_ofNat b _ (by omega), byte_ofNat c _ (by omega)]
  | case2 a b =>
    have ha := a.isLt
    have hb := b.isLt
    simp only [EncodeToString, DecodeString,
      b64val_b64char (a.val / 4) (by omega),
      b64val_b64char (a.val % 4 * 16 + b.val / 16) (by omega),
      b64val_b64char (b.val % 16 * 4) (by omega)]
    rw [byte_ofNat a _ (by omega), byte_ofNat b _ (by omega)]
  | case3 a =>
    have ha := a.isLt
    simp only [EncodeToString, DecodeString,
      b64val_b64char (a.val / 4) (by omega),
      b64val_b64char (a.val % 4 * 16) (by omega)]
    rw [byte_ofNat a _ (by omega)]
  | case4 => simp [EncodeToString, DecodeString]

theorem EncodeToString_injective (a b : List Byte) (h : EncodeToString a = EncodeToString b) :
    a = b := by
  have ha := DecodeString_EncodeToString a
  rw [h, DecodeString_EncodeToString b] at ha
  exact (Option.some.inj ha).symm

theorem EncodeToString_length (bs : List Byte) :
    (EncodeToString bs).length = (4 * bs.length + 2) / 3 := by
  induction bs using EncodeToString.induct with
  | case1 a b c rest ih =>
    simp only [EncodeToString, List.length_cons, ih]
    omega
  | case2 a b => simp [EncodeToString]
  | case3 a => simp [EncodeToString]
  | case4 => simp [EncodeToString]

theorem EncodeToString_alphabet (bs : List Byte) : ∀ c ∈ EncodeToString bs, c ∈ encodeStd := by
  induction bs using EncodeToString.induct with
  | case1 a b c rest ih =>
    have ha := a.isLt
    have hb := b.isLt
    have hc := c.isLt
    intro x hx
    simp only [EncodeToString, List.mem_cons] at hx
    rcases hx with hx | hx | hx | hx | hx
    · rw [hx]; exact b64char_mem _ (by omega)
    · rw [hx]; exact b64char_mem _ (by omega)
    · rw [hx]; exact b64char_mem _ (by omega)
    · rw [hx]; exact b64char_mem _ (by omega)
    · exact ih x hx
  | case2 a b =>
    have ha := a.isLt
    have hb := b.isLt
    intro x hx
    simp only [EncodeToString, List.mem_cons, List.mem_singleton, List.not_mem_nil, or_false] at hx
    rcases hx with hx | hx | hx
    · rw [hx]; exact b64char_mem _ (by omega)
    · rw [hx]; exact b64char_mem _ (by omega)
    · rw [hx]; exact b64char_mem _ (by omega)
  | case3 a =>
    have ha := a.isLt
    intro x hx
    simp only [EncodeToString, List.mem_cons, List.mem_singleton, List.not_mem_nil, or_false] at hx
    rcases hx with hx | hx
    · rw [hx]; exact b64char_mem _ (by omega)
    · rw [hx]; exact b64char_mem _ (by omega)
  | case4 => simp [EncodeToString]

theorem EncodeToString_ne_nil (bs : List Byte) (h : bs ≠ []) : EncodeToString bs ≠ [] := by
  intro hn
  have hl := EncodeToString_length bs
  rw [hn] at hl
  have : bs.length ≠ 0 := by simpa using h
  simp only [List.length_nil] at hl
  omega

theorem parsePayload_EncodeToString (bs : List Byte) (h : bs ≠ []) :
    parsePayload (EncodeToString bs) = some bs := by
  have h1 := EncodeToString_ne_nil bs h
  have h2 := DecodeString_EncodeToString bs
  unfold parsePayload
  split
  · contradiction
  · exact h2

/-! ## Characters of the fields and the delimiters -/

theorem digitChar_ne : ∀ d, d < 10 → digitChar d ≠ '$' ∧ digitChar d ≠ ',' := by decide

theorem alphabet_ne : ∀ c ∈ encodeStd, c ≠ '$' := by decide

theorem dollar_not_mem_dec (n : Nat) : '$' ∉ dec n := by
  intro h
  obtain ⟨d, hd, hc⟩ := dec_digits n _ h
  exact (digitChar_ne d hd).1 hc.symm

theorem comma_not_mem_dec (n : Nat) : ',' ∉ dec n := by
  intro h
  obtain ⟨d, hd, hc⟩ := dec_digits n _ h
  exact (digitChar_ne d hd).2 hc.symm

theorem dollar_not_mem_EncodeToString (bs : List Byte) : '$' ∉ EncodeToString bs := by
  intro h
  exact alphabet_ne _ (EncodeToString_alphabet bs _ h) rfl

/-! ## Splitting and joining -/

theorem splitOn_ne_nil (sep : Char) (l : List Char) : splitOn sep l ≠ [] := by
  cases l with
  | nil => simp [splitOn]
  | cons c cs =>
    simp only [splitOn]
    split <;> simp

theorem splitOn_nosep (sep : Char) (a : List Char) (h : sep ∉ a) : splitOn sep a = [a] := by
  induction a with
  | nil => rfl
  | cons c cs ih =>
    have hc : ¬ c = sep := fun e => h (by simp [e])
    have hcs : sep ∉ cs := fun e => h (List.mem_cons_of_mem _ e)
    simp [splitOn, hc, ih hcs]

theorem splitOn_append (sep : Char) (a b : List Char) (h : sep ∉ a) :
    splitOn sep (a ++ sep :: b) = a :: splitOn sep b := by
  induction a with
  | nil => simp [splitOn]
  | cons c cs ih =>
    have hc : ¬ c = sep := fun e => h (by simp [e])
    have hcs : sep ∉ cs := fun e => h (List.mem_cons_of_mem _ e)
    simp [splitOn, hc, ih hcs]

theorem splitOn_joinOn (sep : Char) (xs : List (List Char)) (hne : xs ≠ [])
    (h : ∀ x ∈ xs, sep ∉ x) : splitOn sep (joinOn sep xs) = xs := by
  induction xs with
  | nil => contradiction
  | cons x rest ih =>
    cases rest with
    | nil => exact splitOn_nosep sep x (h x (by simp))
    | cons y ys =>
      simp only [joinOn]
      rw [splitOn_append sep x _ (h x (by simp))]
      rw [ih (by simp) (fun z hz => h z (List.mem_cons_of_mem _ hz))]

theorem joinOn_cons_cons (sep c : Char) (y : List Char) (ys : List (List Char)) :
    joinOn sep ((c :: y) :: ys) = c :: joinOn sep (y :: ys) := by
  cases ys <;> simp [joinOn]

theorem joinOn_splitOn (sep : Char) (l : List Char) : joinOn sep (splitOn sep l) = l := by
  induction l with
  | nil => rfl
  | cons c cs ih =>
    have hne := splitOn_ne_nil sep cs
    cases hs : splitOn sep cs with
    | nil => exact absurd hs hne
    | cons y ys =>
      rw [hs] at ih
      simp only [splitOn, hs]
      split
      · next hc => simp [joinOn, ih, hc]
      · simp [joinOn_cons_cons, ih]

theorem splitOn_nosep_mem (sep : Char) (l : List Char) : ∀ x ∈ splitOn sep l, sep ∉ x := by
  induction l with
  | nil => simp [splitOn]
  | cons c cs ih =>
    have hne := splitOn_ne_nil sep cs
    cases hs : splitOn sep cs with
    | nil => exact absurd hs hne
    | cons y ys =>
      rw [hs] at ih
      simp only [splitOn, hs]
      split
      · intro x hx
        rcases List.mem_cons.mp hx with hx | hx
        · simp [hx]
        · exact ih x hx
      · next hc =>
        intro x hx
        simp only [List.headD_cons, List.tail_cons, List.mem_cons] at hx
        rcases hx with hx | hx
        · rw [hx]
          intro hm
          rcases List.mem_cons.mp hm with hm | hm
          · exact hc hm.symm
          · exact ih y (by simp) hm
        · exact ih x (by simp [hx])

theorem after_append (tag s : List Char) : after tag (tag ++ s) = some s := by
  induction tag with
  | nil => cases s <;> rfl
  | cons t ts ih => simp [after, ih]

theorem after_some (tag s r : List Char) (h : after tag s = some r) : s = tag ++ r := by
  induction tag generalizing s with
  | nil =>
    cases s <;> simp_all [after]
  | cons t ts ih =>
    cases s with
    | nil => simp [after] at h
    | cons c cs =>
      simp only [after] at h
      split at h
      · next htc => rw [ih cs h, htc]; rfl
      · exact absurd h (by simp)

/-! ## Reading back a written record -/

theorem paramsText_eq (m t p : Nat) :
    paramsText m t p =
      joinOn ',' ["m=".toList ++ dec m, "t=".toList ++ dec t, "p=".toList ++ dec p] := by
  simp [paramsText, joinOn]

theorem recordText_eq (m t p : Nat) (salt key : List Byte) :
    recordText m t p salt key =
      joinOn '$' [[], "argon2id".toList, "v=19".toList, paramsText m t p,
        EncodeToString salt, EncodeToString key] := by
  simp [recordText, paramsText, joinOn]

theorem dollar_not_mem_paramsText (m t p : Nat) : '$' ∉ paramsText m t p := by
  have hm := dollar_not_mem_dec m
  have ht := dollar_not_mem_dec t
  have hp := dollar_not_mem_dec p
  simp [paramsText, hm, ht, hp]

theorem splitOn_paramsText (m t p : Nat) :
    splitOn ',' (paramsText m t p) =
      ["m=".toList ++ dec m, "t=".toList ++ dec t, "p=".toList ++ dec p] := by
  rw [paramsText_eq]
  apply splitOn_joinOn _ _ (by simp)
  have hm := comma_not_mem_dec m
  have ht := comma_not_mem_dec t
  have hp := comma_not_mem_dec p
  intro x hx
  simp only [List.mem_cons, List.mem_singleton, List.not_mem_nil, or_false] at hx
  rcases hx with hx | hx | hx <;> simp [hx, hm, ht, hp]

theorem parseParams_paramsText (m t p : Nat) :
    parseParams (paramsText m t p) = some (m, t, p) := by
  simp only [parseParams, splitOn_paramsText, after_append, Option.some_bind, parseUint_dec]

theorem splitOn_recordText (m t p : Nat) (salt key : List Byte) :
    splitOn '$' (recordText m t p salt key) =
      [[], "argon2id".toList, "v=19".toList, paramsText m t p,
        EncodeToString salt, EncodeToString key] := by
  rw [recordText_eq]
  apply splitOn_joinOn _ _ (by simp)
  have h1 := dollar_not_mem_paramsText m t p
  have h2 := dollar_not_mem_EncodeToString salt
  have h3 := dollar_not_mem_EncodeToString key
  intro x hx
  simp only [List.mem_cons, List.mem_singleton, List.not_mem_nil, or_false] at hx
  rcases hx with hx | hx | hx | hx | hx | hx <;> simp [hx, h1, h2, h3]

theorem parseVersion_19 : (after "v=".toList "v=19".toList).bind parseInt = some 19 := by
  decide

theorem parseRecord_recordText (m t p : Nat) (salt key : List Byte)
    (hs : salt ≠ []) (hk : key ≠ []) :
    parseRecord (recordText m t p salt key) = some ⟨19, m, t, p, salt, key⟩ := by
  simp only [parseRecord, splitOn_recordText, parseVersion_19, parseParams_paramsText,
    parsePayload_EncodeToString salt hs, parsePayload_EncodeToString key hk]
  simp

theorem decode_recordText (m t p : Nat) (salt key : List Byte)
    (hs : salt ≠ []) (hk : key ≠ []) :
    decodeArgon2idHash (recordText m t p salt key) = .ok ⟨19, m, t, p, salt, key⟩ := by
  simp [decodeArgon2idHash, parseRecord_recordText m t p salt key hs hk, Version]

theorem drawnSalt_length (f : Nat → Byte) (n : Nat) : (drawnSalt f n).length = n := by
  simp [drawnSalt]

theorem drawnSalt_ne_nil (f : Nat → Byte) (n : Nat) (h : 0 < n) : drawnSalt f n ≠ [] := by
  intro hn
  have := drawnSalt_length f n
  rw [hn] at this
  simp at this
  omega

theorem decAux_eq_toDigitsCore (fuel n : Nat) (acc : List Char) :
    decAux fuel n acc = Nat.toDigitsCore 10 fuel n acc := by
  induction fuel generalizing n acc with
  | zero => rfl
  | succ k ih =>
    have hd : ∀ d, d < 10 → digitChar d = Nat.digitChar d := by decide
    simp only [decAux, Nat.toDigitsCore]
    by_cases h : n < 10
    · have h0 : n / 10 = 0 := by omega
      have h1 : n % 10 = n := by omega
      simp [h, h0, h1, hd n h]
    · have h0 : ¬ n / 10 = 0 := by omega
      simp [h, h0, ih, hd (n % 10) (by omega)]

theorem dec_eq_toDigits (n : Nat) : dec n = Nat.toDigits 10 n := by
  simp [dec, Nat.toDigits, decAux_eq_toDigitsCore]

/-! ## The claims -/

/-- C1: for every password, parameter set and successfully drawn salt, `Generate`
returns with a nil error exactly the text `$argon2id$v=19$m=` dec(toKB(memory)) `,t=`
dec(t) `,p=` dec(p) `$` b64(salt) `$` b64(key), where key is the result of the derivation
on (password, salt, t, toKB(memory), p, keyLength), 19 renders the version constant
0x13, and dec is the decimal rendering of a natural number. -/
theorem Generate_returns_encoded_record (env : Env) (h : Argon2) (password : List Byte)
    (f : Nat → Byte) (hr : env.rand = .ok f) :
    (Generate env h password).err = none ∧
    (Generate env h password).record =
      some ("$argon2id$v=".toList ++ dec Version ++ "$m=".toList ++
        dec (toKB h.c.HasherArgon2.Memory) ++ ",t=".toList ++ dec h.c.HasherArgon2.Iterations ++
        ",p=".toList ++ dec h.c.HasherArgon2.Parallelism ++ "$".toList ++
        EncodeToString (drawnSalt f h.c.HasherArgon2.SaltLength) ++ "$".toList ++
        EncodeToString (env.IDKey password (drawnSalt f h.c.HasherArgon2.SaltLength)
          h.c.HasherArgon2.Iterations (toKB h.c.HasherArgon2.Memory)
          h.c.HasherArgon2.Parallelism h.c.HasherArgon2.KeyLength)) ∧
    Version = 0x13 ∧ dec Version = "19".toList ∧ (∀ n, dec n = Nat.toDigits 10 n) := by
  refine ⟨?_, ?_, rfl, dec_Version, dec_eq_toDigits⟩
  · rw [Generate_ok env h password f hr]
  · rw [Generate_ok env h password f hr]
    simp [recordText, dec_Version]

/-- Witness of C1 on the sample hasher and a succeeding random source. -/
theorem Generate_returns_encoded_record_witness :
    sampleEnv.rand = .ok countingRand ∧ (Generate sampleEnv sampleHasher []).err = none :=
  ⟨rfl, (Generate_returns_encoded_record sampleEnv sampleHasher [] countingRand rfl).1⟩

/-- C8: `toKB` truncates a whole number of bytes to whole kibibytes: when the quotient
fits 32 bits it is the floor of mem / 1024, multiplying back gives mem exactly for the
multiples of 1024, 19 MiB gives 19456, and the one `toKB` value is both written after
`m=` in the record and handed to the derivation. -/
theorem toKB_floor (mem : Nat) (hfit : mem / 1024 < 2 ^ 32) :
    toKB mem = mem / 1024 ∧
    toKB mem = ⌊(mem : ℚ) / 1024⌋₊ ∧
    (toKB mem * 1024 = mem ↔ mem % 1024 = 0) ∧
    toKB (19 * 1024 * 1024) = 19456 ∧
    ∀ (env : Env) (h : Argon2) (password : List Byte) (f : Nat → Byte),
      env.rand = .ok f → h.c.HasherArgon2.Memory = mem →
      (∃ salt key, (Generate env h password).record =
          some (recordText (toKB mem) h.c.HasherArgon2.Iterations
            h.c.HasherArgon2.Parallelism salt key)) ∧
        (Generate env h password).derivations.map IDKeyCall.memory = [toKB mem] := by
  have h1 : toKB mem = mem / 1024 := by
    simp only [toKB, KB]
    exact Nat.mod_eq_of_lt hfit
  refine ⟨h1, ?_, ?_, by decide, ?_⟩
  · rw [h1]
    have := Nat.floor_div_eq_div (α := ℚ) mem 1024
    rw [← this]
    norm_num
  · rw [h1]
    omega
  · intro env h password f hr hm
    rw [Generate_ok env h password f hr, hm]
    exact ⟨⟨_, _, rfl⟩, rfl⟩

/-- Witness of C8 at 19 MiB. -/
theorem toKB_floor_witness :
    (19 * 1024 * 1024) / 1024 < 2 ^ 32 ∧ toKB (19 * 1024 * 1024) = (19 * 1024 * 1024) / 1024 :=
  ⟨by decide, (toKB_floor (19 * 1024 * 1024) (by decide)).1⟩

/-- C6: `Generate` is all-or-nothing. With the local `bytes.Buffer` it returns a record
and a nil error, or a nil record and an error. When the random source fails, that
error is returned with a nil record after the single read, and no derivation is run.
Over any writer, when the composition fails the wrapped error is returned with a nil
record, whatever the buffer holds by then. -/
theorem Generate_all_or_nothing (w : Writer) (env : Env) (h : Argon2) (password : List Byte) :
    (((Generate env h password).record.isSome ∧ (Generate env h password).err = none) ∨
      ((Generate env h password).record = none ∧ (Generate env h password).err.isSome)) ∧
    (((GenerateW w env h password).record.isSome ∧ (GenerateW w env h password).err = none) ∨
      ((GenerateW w env h password).record = none ∧ (GenerateW w env h password).err.isSome)) ∧
    (match env.rand with
      | .error e =>
        GenerateW w env h password = ⟨none, some e, [h.c.HasherArgon2.SaltLength], [], []⟩ ∧
        Generate env h password = ⟨none, some e, [h.c.HasherArgon2.SaltLength], [], []⟩
      | .ok f =>
        (GenerateW w env h password).reads = [h.c.HasherArgon2.SaltLength] ∧
        (GenerateW w env h password).derivations.length = 1 ∧
        match (Fprintf w [] recordFormat
            [Arg.int Version, Arg.int (toKB h.c.HasherArgon2.Memory),
              Arg.int h.c.HasherArgon2.Iterations, Arg.int h.c.HasherArgon2.Parallelism,
              Arg.str (EncodeToString (drawnSalt f h.c.HasherArgon2.SaltLength)),
              Arg.str (EncodeToString (env.IDKey password
                (drawnSalt f h.c.HasherArgon2.SaltLength) h.c.HasherArgon2.Iterations
                (toKB h.c.HasherArgon2.Memory) h.c.HasherArgon2.Parallelism
                h.c.HasherArgon2.KeyLength))]) with
        | (b, _, some e) =>
          (GenerateW w env h password).record = none ∧
          (GenerateW w env h password).err = some (GoError.withStack e) ∧
          (GenerateW w env h password).buffer = b
        | (b, _, none) =>
          (GenerateW w env h password).record = some b ∧
          (GenerateW w env h password).err = none) := by
  cases hr : env.rand with
  | error e =>
    simp [Generate, GenerateW, randRead, hr]
  | ok f =>
    refine ⟨?_, ?_, ?_⟩
    · rw [Generate_ok env h password f hr]; simp
    · simp only [GenerateW, randRead, hr, make, List.length_replicate]
      split <;> simp
    · simp only [GenerateW, randRead, hr, make, List.length_replicate, drawnSalt]
      split <;> simp_all

/-- Witness of C6: a failing random source, and a writer failing after three bytes. -/
theorem Generate_all_or_nothing_witness :
    GenerateW failingWriter failingEnv sampleHasher [] =
      ⟨none, some (GoError.mk "entropy unavailable"), [16], [], []⟩ ∧
    (GenerateW failingWriter sampleEnv sampleHasher []).record = none ∧
    (GenerateW failingWriter sampleEnv sampleHasher []).err =
      some (GoError.withStack (GoError.mk "short write")) ∧
    (GenerateW failingWriter sampleEnv sampleHasher []).buffer = "$ar".toList :=
  ⟨(Generate_all_or_nothing failingWriter failingEnv sampleHasher []).2.2.1,
    (Generate_all_or_nothing failingWriter sampleEnv sampleHasher []).2.2.2.2⟩

/-- C5, as stated, fails: with a memory size of 512 bytes `toKB` is zero and `Generate`
still returns a record, with `m=0` in it, and a nil error. -/
theorem Generate_zero_memory_proceeds :
    toKB smallMemoryHasher.c.HasherArgon2.Memory = 0 ∧
    (Generate sampleEnv smallMemoryHasher []).err = none ∧
    (Generate sampleEnv smallMemoryHasher []).record.isSome = true ∧
    (Generate sampleEnv smallMemoryHasher []).record.map (List.take 27) =
      some "$argon2id$v=19$m=0,t=1,p=1$".toList := by
  refine ⟨by decide, ?_, ?_, ?_⟩
  · rw [Generate_ok sampleEnv smallMemoryHasher [] countingRand rfl]
  · rw [Generate_ok sampleEnv smallMemoryHasher [] countingRand rfl]; rfl
  · rw [Generate_ok sampleEnv smallMemoryHasher [] countingRand rfl]
    decide

/-- C5, amended: `Generate` does not check the memory size. For every parameter set
whose memory is below one kibibyte, whenever the salt is drawn `Generate` hands
memory 0 to the derivation and returns, with a nil error, the record carrying `m=0`. -/
theorem Generate_zero_memory (env : Env) (h : Argon2) (password : List Byte) (f : Nat → Byte)
    (hr : env.rand = .ok f) (hz : toKB h.c.HasherArgon2.Memory = 0) :
    (Generate env h password).err = none ∧
    (Generate env h password).derivations =
      [⟨password, drawnSalt f h.c.HasherArgon2.SaltLength, h.c.HasherArgon2.Iterations, 0,
        h.c.HasherArgon2.Parallelism, h.c.HasherArgon2.KeyLength⟩] ∧
    (Generate env h password).record =
      some ("$argon2id$v=19$m=0,t=".toList ++ dec h.c.HasherArgon2.Iterations ++
        ",p=".toList ++ dec h.c.HasherArgon2.Parallelism ++ "$".toList ++
        EncodeToString (drawnSalt f h.c.HasherArgon2.SaltLength) ++ "$".toList ++
        EncodeToString (env.IDKey password (drawnSalt f h.c.HasherArgon2.SaltLength)
          h.c.HasherArgon2.Iterations 0 h.c.HasherArgon2.Parallelism
          h.c.HasherArgon2.KeyLength)) := by
  rw [Generate_ok env h password f hr, hz]
  refine ⟨rfl, rfl, ?_⟩
  have h0 : dec 0 = "0".toList := by decide
  simp [recordText, h0]

/-- Witness of the amended C5 at a memory size of 512 bytes. -/
theorem Generate_zero_memory_witness :
    sampleEnv.rand = .ok countingRand ∧ toKB smallMemoryHasher.c.HasherArgon2.Memory = 0 ∧
    (Generate sampleEnv smallMemoryHasher []).err = none :=
  ⟨rfl, by decide,
    (Generate_zero_memory sampleEnv smallMemoryHasher [] countingRand rfl (by decide)).1⟩

theorem recordText_injective (m t p m2 t2 p2 : Nat) (salt key salt2 key2 : List Byte)
    (h : recordText m t p salt key = recordText m2 t2 p2 salt2 key2) :
    m = m2 ∧ t = t2 ∧ p = p2 ∧ salt = salt2 ∧ key = key2 := by
  have hs := congrArg (splitOn '$') h
  rw [splitOn_recordText, splitOn_recordText] at hs
  simp only [List.cons.injEq, and_true, true_and] at hs
  obtain ⟨hp, hsalt, hkey⟩ := hs
  have hc := congrArg (splitOn ',') hp
  rw [splitOn_paramsText, splitOn_paramsText] at hc
  simp only [List.cons.injEq, and_true, List.append_cancel_left_eq] at hc
  exact ⟨dec_injective _ _ hc.1, dec_injective _ _ hc.2.1, dec_injective _ _ hc.2.2,
    EncodeToString_injective _ _ hsalt, EncodeToString_injective _ _ hkey⟩

theorem isDigit_digitChar : ∀ d, d < 10 → (digitChar d).isDigit = true := by decide

theorem IsDigits_dec (n : Nat) : IsDigits (dec n) := by
  refine ⟨dec_ne_nil n, fun c hc => ?_⟩
  obtain ⟨d, hd, rfl⟩ := dec_digits n c hc
  exact isDigit_digitChar d hd

theorem count_dollar_recordText (m t p : Nat) (salt key : List Byte) :
    (recordText m t p salt key).count '$' = 5 := by
  have h1 := List.count_eq_zero_of_not_mem (dollar_not_mem_dec m)
  have h2 := List.count_eq_zero_of_not_mem (dollar_not_mem_dec t)
  have h3 := List.count_eq_zero_of_not_mem (dollar_not_mem_dec p)
  have h4 := List.count_eq_zero_of_not_mem (dollar_not_mem_EncodeToString salt)
  have h5 := List.count_eq_zero_of_not_mem (dollar_not_mem_EncodeToString key)
  simp [recordText, List.count_append, List.count_cons, h1, h2, h3, h4, h5]

theorem alphabet_ne_pad : ∀ c ∈ encodeStd, c ≠ '=' := by decide

theorem ceil_four_thirds (n : Nat) : (4 * n + 2) / 3 = ⌈(4 * (n : ℚ)) / 3⌉₊ := by
  apply le_antisymm
  · by_cases h0 : (4 * n + 2) / 3 = 0
    · rw [h0]; exact Nat.zero_le _
    · obtain ⟨k, hk⟩ := Nat.exists_eq_succ_of_ne_zero h0
      rw [hk]
      apply Nat.succ_le_of_lt
      rw [Nat.lt_ceil]
      have h3 : 3 * k < 4 * n := by omega
      have h3q : ((3 * k : ℕ) : ℚ) < ((4 * n : ℕ) : ℚ) := by exact_mod_cast h3
      push_cast at h3q
      rw [lt_div_iff₀ (by norm_num)]
      linarith
  · rw [Nat.ceil_le]
    have h3 : 4 * n ≤ 3 * ((4 * n + 2) / 3) := by omega
    have h3q : ((4 * n : ℕ) : ℚ) ≤ ((3 * ((4 * n + 2) / 3) : ℕ) : ℚ) := by exact_mod_cast h3
    push_cast at h3q
    rw [div_le_iff₀ (by norm_num)]
    linarith

/-- C3: the record is self-describing. For every password, parameter set and drawn
salt, the memory, iteration, parallelism and salt values written into the record are
the arguments of the one derivation call, the fields of the record are determined by
its text alone, and, the derivation returning keys of the requested length,
re-deriving from any reading (m, t, p, salt, key) of the record with the length of
key gives key again. -/
theorem Generate_self_describing (env : Env) (h : Argon2) (password : List Byte)
    (f : Nat → Byte) (hr : env.rand = .ok f)
    (hlen : ∀ pw s t m p k, (env.IDKey pw s t m p k).length = k) :
    ∃ R c, (Generate env h password).record = some R ∧
      (Generate env h password).derivations = [c] ∧
      c = ⟨password, drawnSalt f h.c.HasherArgon2.SaltLength, h.c.HasherArgon2.Iterations,
        toKB h.c.HasherArgon2.Memory, h.c.HasherArgon2.Parallelism,
        h.c.HasherArgon2.KeyLength⟩ ∧
      R = recordText c.memory c.time c.threads c.salt
        (env.IDKey c.password c.salt c.time c.memory c.threads c.keyLen) ∧
      ∀ m t p salt key, R = recordText m t p salt key →
        (m = c.memory ∧ t = c.time ∧ p = c.threads ∧ salt = c.salt) ∧
        env.IDKey password salt t m p key.length = key := by
  rw [Generate_ok env h password f hr]
  refine ⟨_, _, rfl, rfl, rfl, rfl, ?_⟩
  intro m t p salt key hR
  obtain ⟨hm, ht, hp, hs, hk⟩ := recordText_injective _ _ _ _ _ _ _ _ _ _ hR
  subst hm ht hp hs
  refine ⟨⟨rfl, rfl, rfl, rfl⟩, ?_⟩
  rw [← hk, hlen]

/-- Witness of C3 on the sample hasher. -/
theorem Generate_self_describing_witness :
    sampleEnv.rand = .ok countingRand ∧
    (∀ pw s t m p k, (sampleEnv.IDKey pw s t m p k).length = k) ∧
    ∃ R c, (Generate sampleEnv sampleHasher []).record = some R ∧
      (Generate sampleEnv sampleHasher []).derivations = [c] ∧
      c = ⟨[], drawnSalt countingRand sampleHasher.c.HasherArgon2.SaltLength,
        sampleHasher.c.HasherArgon2.Iterations, toKB sampleHasher.c.HasherArgon2.Memory,
        sampleHasher.c.HasherArgon2.Parallelism, sampleHasher.c.HasherArgon2.KeyLength⟩ ∧
      R = recordText c.memory c.time c.threads c.salt
        (sampleEnv.IDKey c.password c.salt c.time c.memory c.threads c.keyLen) ∧
      ∀ m t p salt key, R = recordText m t p salt key →
        (m = c.memory ∧ t = c.time ∧ p = c.threads ∧ salt = c.salt) ∧
        sampleEnv.IDKey [] salt t m p key.length = key :=
  ⟨rfl, fun _ _ _ _ _ k => List.length_replicate k 0,
    Generate_self_describing sampleEnv sampleHasher [] countingRand rfl
      (fun _ _ _ _ _ k => List.length_replicate k 0)⟩

/-- C4: round trip. For every password and every parameter set with positive salt and
key lengths, the derivation returning keys of the requested length, decoding the
record that `Generate` returns succeeds and gives m = memory in KiB, t = iterations,
p = parallelism, the drawn salt of saltLength octets and the key of keyLength octets;
under 19 MiB, 2, 1, 16, 32 it gives 19456, 2, 1 and payloads of 16 and 32 octets. -/
theorem Generate_decode_roundtrip (env : Env) (h : Argon2) (password : List Byte)
    (f : Nat → Byte) (hr : env.rand = .ok f)
    (hlen : ∀ pw s t m p k, (env.IDKey pw s t m p k).length = k)
    (hs : 0 < h.c.HasherArgon2.SaltLength) (hk : 0 < h.c.HasherArgon2.KeyLength) :
    ∃ R d, (Generate env h password).record = some R ∧
      decodeArgon2idHash R = .ok d ∧
      d.version = 19 ∧
      d.m = toKB h.c.HasherArgon2.Memory ∧
      d.t = h.c.HasherArgon2.Iterations ∧
      d.p = h.c.HasherArgon2.Parallelism ∧
      d.salt = drawnSalt f h.c.HasherArgon2.SaltLength ∧
      d.salt.length = h.c.HasherArgon2.SaltLength ∧
      d.key = env.IDKey password d.salt d.t d.m d.p h.c.HasherArgon2.KeyLength ∧
      d.key.length = h.c.HasherArgon2.KeyLength ∧
      (h.c.HasherArgon2 = ⟨19 * 1024 * 1024, 2, 1, 16, 32⟩ →
        d.m = 19456 ∧ d.t = 2 ∧ d.p = 1 ∧ d.salt.length = 16 ∧ d.key.length = 32) := by
  rw [Generate_ok env h password f hr]
  have hsalt := drawnSalt_ne_nil f _ hs
  have hkey : env.IDKey password (drawnSalt f h.c.HasherArgon2.SaltLength)
      h.c.HasherArgon2.Iterations (toKB h.c.HasherArgon2.Memory)
      h.c.HasherArgon2.Parallelism h.c.HasherArgon2.KeyLength ≠ [] := by
    intro hn
    have := hlen password (drawnSalt f h.c.HasherArgon2.SaltLength)
      h.c.HasherArgon2.Iterations (toKB h.c.HasherArgon2.Memory)
      h.c.HasherArgon2.Parallelism h.c.HasherArgon2.KeyLength
    rw [hn] at this
    simp at this
    omega
  refine ⟨_, _, rfl, decode_recordText _ _ _ _ _ hsalt hkey, rfl, rfl, rfl, rfl, rfl,
    drawnSalt_length _ _, rfl, hlen _ _ _ _ _ _, ?_⟩
  intro hc
  have h19 : toKB (19 * 1024 * 1024) = 19456 := by decide
  rw [drawnSalt_length, hlen, hc]
  exact ⟨h19, rfl, rfl, rfl, rfl⟩

/-- Witness of C4 on the sample hasher (19 MiB, 2, 1, 16, 32). -/
theorem Generate_decode_roundtrip_witness :
    sampleEnv.rand = .ok countingRand ∧
    (∀ pw s t m p k, (sampleEnv.IDKey pw s t m p k).length = k) ∧
    0 < sampleHasher.c.HasherArgon2.SaltLength ∧ 0 < sampleHasher.c.HasherArgon2.KeyLength ∧
    ∃ R d, (Generate sampleEnv sampleHasher []).record = some R ∧
      decodeArgon2idHash R = .ok d ∧ d.m = 19456 ∧ d.t = 2 ∧ d.p = 1 ∧
      d.salt.length = 16 ∧ d.key.length = 32 := by
  refine ⟨rfl, fun _ _ _ _ _ k => List.length_replicate k 0, by decide, by decide, ?_⟩
  obtain ⟨R, d, h1, h2, _, _, _, _, _, _, _, _, h3⟩ :=
    Generate_decode_roundtrip sampleEnv sampleHasher [] countingRand rfl
      (fun _ _ _ _ _ k => List.length_replicate k 0) (by decide) (by decide)
  exact ⟨R, d, h1, h2, h3 rfl⟩

/-- C9: with the drawn salt an explicit input, the salt of a call has exactly
saltLength octets and is read once per call, it is the salt handed to the derivation,
and for every password and parameter set two calls whose drawn salts differ return
different records. -/
theorem Generate_salt_injective (env1 env2 : Env) (h : Argon2) (password : List Byte)
    (f1 f2 : Nat → Byte) (hr1 : env1.rand = .ok f1) (hr2 : env2.rand = .ok f2)
    (hne : drawnSalt f1 h.c.HasherArgon2.SaltLength ≠ drawnSalt f2 h.c.HasherArgon2.SaltLength) :
    (drawnSalt f1 h.c.HasherArgon2.SaltLength).length = h.c.HasherArgon2.SaltLength ∧
    (drawnSalt f2 h.c.HasherArgon2.SaltLength).length = h.c.HasherArgon2.SaltLength ∧
    (Generate env1 h password).reads = [h.c.HasherArgon2.SaltLength] ∧
    (Generate env2 h password).reads = [h.c.HasherArgon2.SaltLength] ∧
    (Generate env1 h password).derivations.map IDKeyCall.salt =
      [drawnSalt f1 h.c.HasherArgon2.SaltLength] ∧
    (Generate env2 h password).derivations.map IDKeyCall.salt =
      [drawnSalt f2 h.c.HasherArgon2.SaltLength] ∧
    (Generate env1 h password).record.isSome = true ∧
    (Generate env2 h password).record.isSome = true ∧
    (Generate env1 h password).record ≠ (Generate env2 h password).record := by
  rw [Generate_ok env1 h password f1 hr1, Generate_ok env2 h password f2 hr2]
  refine ⟨drawnSalt_length _ _, drawnSalt_length _ _, rfl, rfl, rfl, rfl, rfl, rfl, ?_⟩
  intro heq
  have := recordText_injective _ _ _ _ _ _ _ _ _ _ (Option.some.inj heq)
  exact hne this.2.2.2.1

/-- Witness of C9: two random sources delivering different octets. -/
theorem Generate_salt_injective_witness :
    sampleEnv.rand = .ok countingRand ∧ shiftedEnv.rand = .ok shiftedRand ∧
    drawnSalt countingRand sampleHasher.c.HasherArgon2.SaltLength ≠
      drawnSalt shiftedRand sampleHasher.c.HasherArgon2.SaltLength ∧
    (Generate sampleEnv sampleHasher []).record ≠ (Generate shiftedEnv sampleHasher []).record :=
  ⟨rfl, rfl, by decide,
    (Generate_salt_injective sampleEnv shiftedEnv sampleHasher [] countingRand shiftedRand
      rfl rfl (by decide)).2.2.2.2.2.2.2.2⟩

/-- C10: for every password and every parameter set with positive salt and key
lengths, the derivation returning keys of the requested length, the record contains
exactly five `$`, and splitting it on `$` gives an empty leading piece and then exactly
five non-empty segments: `argon2id`, `v=` and decimal digits, `m=`digits`,t=`digits`,p=`digits,
and two segments of characters of the standard base64 alphabet without `=`, of lengths
ceil(4 saltLength / 3) and ceil(4 keyLength / 3), which are 22 and 43 for 16 and 32
octets. -/
theorem Generate_record_shape (env : Env) (h : Argon2) (password : List Byte)
    (f : Nat → Byte) (hr : env.rand = .ok f)
    (hlen : ∀ pw s t m p k, (env.IDKey pw s t m p k).length = k)
    (hs : 0 < h.c.HasherArgon2.SaltLength) (hk : 0 < h.c.HasherArgon2.KeyLength) :
    ∃ R vd md td pd sseg kseg, (Generate env h password).record = some R ∧
      R.count '$' = 5 ∧
      splitOn '$' R = [[], "argon2id".toList, "v=".toList ++ vd,
        "m=".toList ++ md ++ ",t=".toList ++ td ++ ",p=".toList ++ pd, sseg, kseg] ∧
      IsDigits vd ∧ IsDigits md ∧ IsDigits td ∧ IsDigits pd ∧
      sseg ≠ [] ∧ kseg ≠ [] ∧
      (∀ c ∈ sseg, c ∈ encodeStd ∧ c ≠ '=' ∧ c ≠ '$') ∧
      (∀ c ∈ kseg, c ∈ encodeStd ∧ c ≠ '=' ∧ c ≠ '$') ∧
      sseg.length = ⌈(4 * (h.c.HasherArgon2.SaltLength : ℚ)) / 3⌉₊ ∧
      kseg.length = ⌈(4 * (h.c.HasherArgon2.KeyLength : ℚ)) / 3⌉₊ ∧
      (h.c.HasherArgon2.SaltLength = 16 → sseg.length = 22) ∧
      (h.c.HasherArgon2.KeyLength = 32 → kseg.length = 43) := by
  rw [Generate_ok env h password f hr]
  have hsalt := drawnSalt_ne_nil f _ hs
  have hkl := hlen password (drawnSalt f h.c.HasherArgon2.SaltLength)
      h.c.HasherArgon2.Iterations (toKB h.c.HasherArgon2.Memory)
      h.c.HasherArgon2.Parallelism h.c.HasherArgon2.KeyLength
  have hkey : env.IDKey password (drawnSalt f h.c.HasherArgon2.SaltLength)
      h.c.HasherArgon2.Iterations (toKB h.c.HasherArgon2.Memory)
      h.c.HasherArgon2.Parallelism h.c.HasherArgon2.KeyLength ≠ [] := by
    intro hn
    rw [hn] at hkl
    simp at hkl
    omega
  have hsl : (EncodeToString (drawnSalt f h.c.HasherArgon2.SaltLength)).length =
      (4 * h.c.HasherArgon2.SaltLength + 2) / 3 := by
    rw [EncodeToString_length, drawnSalt_length]
  have hkl2 : (EncodeToString (env.IDKey password (drawnSalt f h.c.HasherArgon2.SaltLength)
      h.c.HasherArgon2.Iterations (toKB h.c.HasherArgon2.Memory)
      h.c.HasherArgon2.Parallelism h.c.HasherArgon2.KeyLength)).length =
      (4 * h.c.HasherArgon2.KeyLength + 2) / 3 := by
    rw [EncodeToString_length, hkl]
  refine ⟨_, dec 19, dec (toKB h.c.HasherArgon2.Memory), dec h.c.HasherArgon2.Iterations,
    dec h.c.HasherArgon2.Parallelism, _, _, rfl, count_dollar_recordText _ _ _ _ _, ?_,
    IsDigits_dec _, IsDigits_dec _, IsDigits_dec _, IsDigits_dec _,
    EncodeToString_ne_nil _ hsalt, EncodeToString_ne_nil _ hkey, ?_, ?_, ?_, ?_, ?_, ?_⟩
  · rw [splitOn_recordText]
    have h19 : dec 19 = "19".toList := by decide
    simp [paramsText, h19]
  · intro c hc
    have := EncodeToString_alphabet _ c hc
    exact ⟨this, alphabet_ne_pad c this, alphabet_ne c this⟩
  · intro c hc
    have := EncodeToString_alphabet _ c hc
    exact ⟨this, alphabet_ne_pad c this, alphabet_ne c this⟩
  · rw [hsl, ceil_four_thirds]
  · rw [hkl2, ceil_four_thirds]
  · intro h16
    rw [hsl, h16]
  · intro h32
    rw [hkl2, h32]

/-- Witness of C10 on the sample hasher (16 salt octets, 32 key octets). -/
theorem Generate_record_shape_witness :
    sampleEnv.rand = .ok countingRand ∧
    (∀ pw s t m p k, (sampleEnv.IDKey pw s t m p k).length = k) ∧
    0 < sampleHasher.c.HasherArgon2.SaltLength ∧ 0 < sampleHasher.c.HasherArgon2.KeyLength ∧
    ∃ R sseg kseg, (Generate sampleEnv sampleHasher []).record = some R ∧
      R.count '$' = 5 ∧ (splitOn '$' R).drop 4 = [sseg, kseg] ∧
      sseg.length = 22 ∧ kseg.length = 43 := by
  refine ⟨rfl, fun _ _ _ _ _ k => List.length_replicate k 0, by decide, by decide, ?_⟩
  obtain ⟨R, vd, md, td, pd, sseg, kseg, h1, h2, h3, _, _, _, _, _, _, _, _, _, _, h4, h5⟩ :=
    Generate_record_shape sampleEnv sampleHasher [] countingRand rfl
      (fun _ _ _ _ _ k => List.length_replicate k 0) (by decide) (by decide)
  exact ⟨R, sseg, kseg, h1, h2, by rw [h3]; rfl, h4 rfl, h5 rfl⟩

/-! ## The recogniser and the grammar -/

theorem parseDigits_isSome (s : List Char) (acc : Nat) :
    (parseDigits s acc).isSome = true ↔ ∀ c ∈ s, c.isDigit = true := by
  induction s generalizing acc with
  | nil => simp [parseDigits]
  | cons c cs ih =>
    by_cases hc : c.isDigit = true
    · simp [parseDigits, digitVal, hc, ih]
    · simp [parseDigits, digitVal, hc]

theorem parseUint_isSome (s : List Char) : (parseUint s).isSome = true ↔ IsDigits s := by
  cases s with
  | nil => simp [parseUint, IsDigits]
  | cons c cs => simp [parseUint, IsDigits, parseDigits_isSome]

theorem IsDigits_not_minus (d : List Char) : ¬ IsDigits ('-' :: d) := by
  intro h
  have := h.2 '-' (by simp)
  exact absurd this (by decide)

theorem parseInt_isSome (s : List Char) : (parseInt s).isSome = true ↔ IsIntLit s := by
  unfold parseInt
  split
  · next d =>
    rw [Option.isSome_map', parseUint_isSome]
    constructor
    · intro h; exact Or.inr ⟨d, rfl, h⟩
    · intro h
      rcases h with h | ⟨d2, hd, h⟩
      · exact absurd h (IsDigits_not_minus d)
      · simp only [List.cons.injEq, true_and] at hd
        rw [hd]; exact h
  · next hne =>
    rw [Option.isSome_map', parseUint_isSome]
    constructor
    · intro h; exact Or.inl h
    · intro h
      rcases h with h | ⟨d2, hd, _⟩
      · exact h
      · exact absurd hd (hne d2)

theorem b64val_isSome (c : Char) : (b64val c).isSome = true ↔ c ∈ encodeStd := by
  have hl : encodeStd.length = 64 := by decide
  unfold b64val
  rw [← List.indexOf_lt_length, hl]
  split <;> simp_all

theorem DecodeString_isSome : ∀ s : List Char,
    (DecodeString s).isSome = true ↔ (∀ c ∈ s, c ∈ encodeStd) ∧ s.length % 4 ≠ 1
  | c0 :: c1 :: c2 :: c3 :: rest => by
    have ih := DecodeString_isSome rest
    have e0 := b64val_isSome c0
    have e1 := b64val_isSome c1
    have e2 := b64val_isSome c2
    have e3 := b64val_isSome c3
    have hlen : (rest.length + 1 + 1 + 1 + 1) % 4 = rest.length % 4 := by omega
    simp only [DecodeString, List.mem_cons, forall_eq_or_imp, List.length_cons, hlen,
      ← e0, ← e1, ← e2, ← e3, ← ih, and_assoc]
    cases b64val c0 <;> cases b64val c1 <;> cases b64val c2 <;> cases b64val c3 <;>
      cases DecodeString rest <;> simp
  | [c0, c1, c2] => by
    have e0 := b64val_isSome c0
    have e1 := b64val_isSome c1
    have e2 := b64val_isSome c2
    simp only [DecodeString, List.mem_cons, forall_eq_or_imp, List.length_cons, ← e0, ← e1, ← e2]
    cases b64val c0 <;> cases b64val c1 <;> cases b64val c2 <;> simp
  | [c0, c1] => by
    have e0 := b64val_isSome c0
    have e1 := b64val_isSome c1
    simp only [DecodeString, List.mem_cons, forall_eq_or_imp, List.length_cons, ← e0, ← e1]
    cases b64val c0 <;> cases b64val c1 <;> simp
  | [c0] => by simp [DecodeString]
  | [] => by simp [DecodeString]

theorem parsePayload_isSome (s : List Char) : (parsePayload s).isSome = true ↔ IsPayload s := by
  cases s with
  | nil => simp [parsePayload, IsPayload]
  | cons c cs =>
    simp only [parsePayload, IsPayload, DecodeString_isSome]
    simp

theorem isDigit_ne (c : Char) (h : c.isDigit = true) : c ≠ '$' ∧ c ≠ ',' ∧ c ≠ '-' := by
  refine ⟨?_, ?_, ?_⟩ <;> intro he <;> rw [he] at h <;> exact absurd h (by decide)

theorem IsDigits_not_mem (d : List Char) (h : IsDigits d) : '$' ∉ d ∧ ',' ∉ d :=
  ⟨fun hm => (isDigit_ne _ (h.2 _ hm)).1 rfl, fun hm => (isDigit_ne _ (h.2 _ hm)).2.1 rfl⟩

theorem IsIntLit_not_mem (v : List Char) (h : IsIntLit v) : '$' ∉ v := by
  rcases h with h | ⟨d, rfl, h⟩
  · exact (IsDigits_not_mem v h).1
  · intro hm
    rcases List.mem_cons.mp hm with hm | hm
    · exact absurd hm (by decide)
    · exact (IsDigits_not_mem d h).1 hm

theorem IsPayload_not_mem (s : List Char) (h : IsPayload s) : '$' ∉ s :=
  fun hm => alphabet_ne _ (h.2.1 _ hm) rfl

theorem taggedUint_isSome (tag x : List Char) :
    ((after tag x).bind parseUint).isSome = true ↔ ∃ d, IsDigits d ∧ x = tag ++ d := by
  constructor
  · intro h
    cases ha : after tag x with
    | none => simp [ha] at h
    | some r =>
      rw [ha, Option.some_bind] at h
      exact ⟨r, (parseUint_isSome r).mp h, after_some tag x r ha⟩
  · rintro ⟨d, hd, rfl⟩
    rw [after_append, Option.some_bind]
    exact (parseUint_isSome d).mpr hd

theorem taggedInt_isSome (tag x : List Char) :
    ((after tag x).bind parseInt).isSome = true ↔ ∃ d, IsIntLit d ∧ x = tag ++ d := by
  constructor
  · intro h
    cases ha : after tag x with
    | none => simp [ha] at h
    | some r =>
      rw [ha, Option.some_bind] at h
      exact ⟨r, (parseInt_isSome r).mp h, after_some tag x r ha⟩
  · rintro ⟨d, hd, rfl⟩
    rw [after_append, Option.some_bind]
    exact (parseInt_isSome d).mpr hd

theorem splitOn_params (m t p : List Char) (hm : IsDigits m) (ht : IsDigits t)
    (hp : IsDigits p) :
    splitOn ',' ("m=".toList ++ m ++ ",t=".toList ++ t ++ ",p=".toList ++ p) =
      ["m=".toList ++ m, "t=".toList ++ t, "p=".toList ++ p] := by
  have e : "m=".toList ++ m ++ ",t=".toList ++ t ++ ",p=".toList ++ p =
      joinOn ',' ["m=".toList ++ m, "t=".toList ++ t, "p=".toList ++ p] := by
    simp [joinOn]
  rw [e]
  apply splitOn_joinOn _ _ (by simp)
  have h1 := (IsDigits_not_mem m hm).2
  have h2 := (IsDigits_not_mem t ht).2
  have h3 := (IsDigits_not_mem p hp).2
  intro x hx
  simp only [List.mem_cons, List.mem_singleton, List.not_mem_nil, or_false] at hx
  rcases hx with hx | hx | hx <;> simp [hx, h1, h2, h3]

theorem parseParams_isSome (s : List Char) :
    (parseParams s).isSome = true ↔
      ∃ m t p, IsDigits m ∧ IsDigits t ∧ IsDigits p ∧
        s = "m=".toList ++ m ++ ",t=".toList ++ t ++ ",p=".toList ++ p := by
  constructor
  · intro h
    unfold parseParams at h
    split at h
    · next a b c hsp =>
      have hj := joinOn_splitOn ',' s
      rw [hsp] at hj
      split at h
      · next vm vt vp hA hB hC =>
        obtain ⟨m, hm, rfl⟩ := (taggedUint_isSome _ a).mp (by rw [hA]; rfl)
        obtain ⟨t, ht, rfl⟩ := (taggedUint_isSome _ b).mp (by rw [hB]; rfl)
        obtain ⟨p, hp, rfl⟩ := (taggedUint_isSome _ c).mp (by rw [hC]; rfl)
        refine ⟨m, t, p, hm, ht, hp, ?_⟩
        rw [← hj]
        simp [joinOn]
      · simp at h
    · simp at h
  · rintro ⟨m, t, p, hm, ht, hp, rfl⟩
    obtain ⟨vm, hvm⟩ := Option.isSome_iff_exists.mp ((parseUint_isSome m).mpr hm)
    obtain ⟨vt, hvt⟩ := Option.isSome_iff_exists.mp ((parseUint_isSome t).mpr ht)
    obtain ⟨vp, hvp⟩ := Option.isSome_iff_exists.mp ((parseUint_isSome p).mpr hp)
    simp only [parseParams, splitOn_params m t p hm ht hp, after_append, Option.some_bind,
      hvm, hvt, hvp]
    rfl

theorem dollar_not_mem_params (m t p : List Char) (hm : IsDigits m) (ht : IsDigits t)
    (hp : IsDigits p) :
    '$' ∉ "m=".toList ++ m ++ ",t=".toList ++ t ++ ",p=".toList ++ p := by
  have h1 := (IsDigits_not_mem m hm).1
  have h2 := (IsDigits_not_mem t ht).1
  have h3 := (IsDigits_not_mem p hp).1
  simp [h1, h2, h3]

theorem splitOn_canonical (v m t p s k : List Char) (hv : IsIntLit v) (hm : IsDigits m)
    (ht : IsDigits t) (hp : IsDigits p) (h3 : '$' ∉ s) (h4 : '$' ∉ k) :
    splitOn '$' ("$argon2id$v=".toList ++ v ++ "$m=".toList ++ m ++ ",t=".toList ++ t ++
        ",p=".toList ++ p ++ "$".toList ++ s ++ "$".toList ++ k) =
      [[], "argon2id".toList, "v=".toList ++ v,
        "m=".toList ++ m ++ ",t=".toList ++ t ++ ",p=".toList ++ p, s, k] := by
  have e : "$argon2id$v=".toList ++ v ++ "$m=".toList ++ m ++ ",t=".toList ++ t ++
        ",p=".toList ++ p ++ "$".toList ++ s ++ "$".toList ++ k =
      joinOn '$' [[], "argon2id".toList, "v=".toList ++ v,
        "m=".toList ++ m ++ ",t=".toList ++ t ++ ",p=".toList ++ p, s, k] := by
    simp [joinOn]
  rw [e]
  apply splitOn_joinOn _ _ (by simp)
  have h1 := IsIntLit_not_mem v hv
  have h2 := dollar_not_mem_params m t p hm ht hp
  intro x hx
  simp only [List.mem_cons, List.mem_singleton, List.not_mem_nil, or_false] at hx
  rcases hx with hx | hx | hx | hx | hx | hx
  · simp [hx]
  · simp [hx]
  · rw [hx]; simpa using h1
  · rw [hx]; exact h2
  · rw [hx]; exact h3
  · rw [hx]; exact h4

theorem parseRecord_isSome (c : List Char) :
    (parseRecord c).isSome = true ↔ IsCanonical c := by
  constructor
  · intro h
    unfold parseRecord at h
    split at h
    · next lead tag ver params salt key hsp =>
      have hj := joinOn_splitOn '$' c
      rw [hsp] at hj
      split at h
      · next hlt =>
        split at h
        · next vv vm vt vp vs vk hV hP hS hK =>
          obtain ⟨v, hv, rfl⟩ := (taggedInt_isSome _ ver).mp (by rw [hV]; rfl)
          obtain ⟨m, t, p, hm, ht, hp, rfl⟩ := (parseParams_isSome params).mp (by rw [hP]; rfl)
          have hs := (parsePayload_isSome salt).mp (by rw [hS]; rfl)
          have hk := (parsePayload_isSome key).mp (by rw [hK]; rfl)
          refine ⟨v, m, t, p, salt, key, hv, hm, ht, hp, hs, hk, ?_⟩
          rw [← hj, hlt.1, hlt.2]
          simp [joinOn]
        · simp at h
      · simp at h
    · simp at h
  · rintro ⟨v, m, t, p, s, k, hv, hm, ht, hp, hs, hk, rfl⟩
    obtain ⟨vv, hvv⟩ := Option.isSome_iff_exists.mp ((parseInt_isSome v).mpr hv)
    obtain ⟨vp, hvp⟩ := Option.isSome_iff_exists.mp
      ((parseParams_isSome _).mpr ⟨m, t, p, hm, ht, hp, rfl⟩)
    obtain ⟨vs, hvs⟩ := Option.isSome_iff_exists.mp ((parsePayload_isSome s).mpr hs)
    obtain ⟨vk, hvk⟩ := Option.isSome_iff_exists.mp ((parsePayload_isSome k).mpr hk)
    obtain ⟨pm, pt, pp⟩ := vp
    simp only [parseRecord, splitOn_canonical v m t p s k hv hm ht hp
      (IsPayload_not_mem s hs) (IsPayload_not_mem k hk), after_append,
      Option.some_bind, hvv, hvp, hvs, hvk]
    simp

theorem canonical_payloads (v m t p s k : List Char) (hv : IsIntLit v) (hm : IsDigits m)
    (ht : IsDigits t) (hp : IsDigits p) (hs : '$' ∉ s) (hk : '$' ∉ k)
    (hc : IsCanonical ("$argon2id$v=".toList ++ v ++ "$m=".toList ++ m ++ ",t=".toList ++ t ++
        ",p=".toList ++ p ++ "$".toList ++ s ++ "$".toList ++ k)) :
    IsPayload s ∧ IsPayload k := by
  obtain ⟨v2, m2, t2, p2, s2, k2, hv2, hm2, ht2, hp2, hs2, hk2, he⟩ := hc
  have h := congrArg (splitOn '$') he
  rw [splitOn_canonical v m t p s k hv hm ht hp hs hk,
    splitOn_canonical v2 m2 t2 p2 s2 k2 hv2 hm2 ht2 hp2
      (IsPayload_not_mem s2 hs2) (IsPayload_not_mem k2 hk2)] at h
  simp only [List.cons.injEq, and_true, true_and] at h
  obtain ⟨_, _, h5, h6⟩ := h
  rw [h5, h6]
  exact ⟨hs2, hk2⟩

theorem canonical_take (c : List Char) (h : IsCanonical c) :
    c.take 10 = "$argon2id$".toList := by
  obtain ⟨v, m, t, p, s, k, _, _, _, _, _, _, rfl⟩ := h
  simp

theorem IsPayload_EncodeToString (bs : List Byte) (h : bs ≠ []) :
    IsPayload (EncodeToString bs) :=
  (parsePayload_isSome _).mp (by rw [parsePayload_EncodeToString bs h]; rfl)

/-- C7: `Understands` is true exactly for a candidate of the canonical structure: the
tag `argon2id`, a well-formed version, the `m=,t=,p=` section and two non-empty,
validly encoded payload segments. It is false for the empty input, for input that does
not start with `$argon2id$`, and for a record with a payload character outside the
alphabet; it is true for a record whose payloads were replaced by other valid ones; it
is a total predicate, false on everything malformed. -/
theorem Understands_iff_canonical (h : Argon2) (candidate : List Char) :
    (Understands h candidate = true ↔ IsCanonical candidate) ∧
    (¬ IsCanonical candidate → Understands h candidate = false) ∧
    Understands h [] = false ∧
    (candidate.take 10 ≠ "$argon2id$".toList → Understands h candidate = false) ∧
    (∀ v m t p s k, IsIntLit v → IsDigits m → IsDigits t → IsDigits p →
      '$' ∉ s → '$' ∉ k → ((∃ x ∈ s, x ∉ encodeStd) ∨ (∃ x ∈ k, x ∉ encodeStd)) →
      Understands h ("$argon2id$v=".toList ++ v ++ "$m=".toList ++ m ++ ",t=".toList ++ t ++
        ",p=".toList ++ p ++ "$".toList ++ s ++ "$".toList ++ k) = false) ∧
    (∀ v m t p s k s2 k2,
      candidate = "$argon2id$v=".toList ++ v ++ "$m=".toList ++ m ++ ",t=".toList ++ t ++
        ",p=".toList ++ p ++ "$".toList ++ s ++ "$".toList ++ k →
      IsIntLit v → IsDigits m → IsDigits t → IsDigits p → IsPayload s2 → IsPayload k2 →
      Understands h ("$argon2id$v=".toList ++ v ++ "$m=".toList ++ m ++ ",t=".toList ++ t ++
        ",p=".toList ++ p ++ "$".toList ++ s2 ++ "$".toList ++ k2) = true) := by
  have key : ∀ c, Understands h c = true ↔ IsCanonical c := fun c => parseRecord_isSome c
  have neg : ∀ c, ¬ IsCanonical c → Understands h c = false := by
    intro c hc
    cases hu : Understands h c with
    | false => rfl
    | true => exact absurd ((key c).mp hu) hc
  have hnil : IsArgon2idHash [] = false := by decide
  refine ⟨key candidate, neg candidate, hnil, ?_, ?_, ?_⟩
  · intro hne
    exact neg candidate (fun hc => hne (canonical_take candidate hc))
  · intro v m t p s k hv hm ht hp hs hk hx
    apply neg
    intro hc
    obtain ⟨h1, h2⟩ := canonical_payloads v m t p s k hv hm ht hp hs hk hc
    rcases hx with ⟨x, hxs, hxn⟩ | ⟨x, hxk, hxn⟩
    · exact hxn (h1.2.1 x hxs)
    · exact hxn (h2.2.1 x hxk)
  · intro v m t p s k s2 k2 _ hv hm ht hp hs2 hk2
    exact (key _).mpr ⟨v, m, t, p, s2, k2, hv, hm, ht, hp, hs2, hk2, rfl⟩

/-- Witness of C7: a record whose salt segment holds `!` is not understood, and the
record with the valid segments `AAE` and `AAAA` is. -/
theorem Understands_iff_canonical_witness :
    Understands sampleHasher "$argon2id$v=19$m=19456,t=2,p=1$AAE!$AAAA".toList = false ∧
    Understands sampleHasher "$argon2id$v=19$m=19456,t=2,p=1$AAE$AAAA".toList = true :=
  ⟨(Understands_iff_canonical sampleHasher []).2.2.2.2.1 "19".toList "19456".toList
      "2".toList "1".toList "AAE!".toList "AAAA".toList (Or.inl ⟨by decide, by decide⟩)
      ⟨by decide, by decide⟩ ⟨by decide, by decide⟩ ⟨by decide, by decide⟩ (by decide)
      (by decide) (Or.inl ⟨'!', by decide, by decide⟩),
    (Understands_iff_canonical sampleHasher
      "$argon2id$v=19$m=19456,t=2,p=1$AAE!$AAAA".toList).2.2.2.2.2 "19".toList "19456".toList
      "2".toList "1".toList "AAE!".toList "AAAA".toList "AAE".toList "AAAA".toList rfl
      (Or.inl ⟨by decide, by decide⟩) ⟨by decide, by decide⟩ ⟨by decide, by decide⟩
      ⟨by decide, by decide⟩ ⟨by decide, by decide, by decide⟩
      ⟨by decide, by decide, by decide⟩⟩

/-- C2: for every password and every cost-parameter set, whose salt and key lengths
are positive as the data model requires, the derivation returning keys of the
requested length, the record that `Generate` returns is understood, by every hasher
instance whatever its configuration: records generated before and after a change of
configuration are both recognised. -/
theorem Generate_understood (env1 env2 : Env) (h1 h2 h3 : Argon2) (pw1 pw2 : List Byte)
    (f1 f2 : Nat → Byte) (hr1 : env1.rand = .ok f1) (hr2 : env2.rand = .ok f2)
    (hlen1 : ∀ pw s t m p k, (env1.IDKey pw s t m p k).length = k)
    (hlen2 : ∀ pw s t m p k, (env2.IDKey pw s t m p k).length = k)
    (hs1 : 0 < h1.c.HasherArgon2.SaltLength) (hk1 : 0 < h1.c.HasherArgon2.KeyLength)
    (hs2 : 0 < h2.c.HasherArgon2.SaltLength) (hk2 : 0 < h2.c.HasherArgon2.KeyLength) :
    ∃ R1 R2, (Generate env1 h1 pw1).record = some R1 ∧
      (Generate env2 h2 pw2).record = some R2 ∧
      Understands h1 R1 = true ∧ Understands h2 R2 = true ∧
      Understands h2 R1 = true ∧ Understands h1 R2 = true ∧
      Understands h3 R1 = true ∧ Understands h3 R2 = true := by
  have key : ∀ (env : Env) (h : Argon2) (pw : List Byte) (f : Nat → Byte),
      (∀ pw s t m p k, (env.IDKey pw s t m p k).length = k) →
      0 < h.c.HasherArgon2.SaltLength → 0 < h.c.HasherArgon2.KeyLength →
      IsArgon2idHash (recordText (toKB h.c.HasherArgon2.Memory) h.c.HasherArgon2.Iterations
        h.c.HasherArgon2.Parallelism (drawnSalt f h.c.HasherArgon2.SaltLength)
        (env.IDKey pw (drawnSalt f h.c.HasherArgon2.SaltLength)
          h.c.HasherArgon2.Iterations (toKB h.c.HasherArgon2.Memory)
          h.c.HasherArgon2.Parallelism h.c.HasherArgon2.KeyLength)) = true := by
    intro env h pw f hlen hs hk
    have hsalt := drawnSalt_ne_nil f _ hs
    have hkey : env.IDKey pw (drawnSalt f h.c.HasherArgon2.SaltLength)
        h.c.HasherArgon2.Iterations (toKB h.c.HasherArgon2.Memory)
        h.c.HasherArgon2.Parallelism h.c.HasherArgon2.KeyLength ≠ [] := by
      intro hn
      have := hlen pw (drawnSalt f h.c.HasherArgon2.SaltLength)
        h.c.HasherArgon2.Iterations (toKB h.c.HasherArgon2.Memory)
        h.c.HasherArgon2.Parallelism h.c.HasherArgon2.KeyLength
      rw [hn] at this
      simp at this
      omega
    simp [IsArgon2idHash, parseRecord_recordText _ _ _ _ _ hsalt hkey]
  rw [Generate_ok env1 h1 pw1 f1 hr1, Generate_ok env2 h2 pw2 f2 hr2]
  have k1 := key env1 h1 pw1 f1 hlen1 hs1 hk1
  have k2 := key env2 h2 pw2 f2 hlen2 hs2 hk2
  exact ⟨_, _, rfl, rfl, k1, k2, k1, k2, k1, k2⟩

/-- Witness of C2: a record of the sample hasher and one of a hasher with other
parameters, read by a third hasher. -/
theorem Generate_understood_witness :
    sampleEnv.rand = .ok countingRand ∧ shiftedEnv.rand = .ok shiftedRand ∧
    (∀ pw s t m p k, (sampleEnv.IDKey pw s t m p k).length = k) ∧
    0 < sampleHasher.c.HasherArgon2.SaltLength ∧ 0 < sampleHasher.c.HasherArgon2.KeyLength ∧
    0 < smallMemoryHasher.c.HasherArgon2.SaltLength ∧
    0 < smallMemoryHasher.c.HasherArgon2.KeyLength ∧
    ∃ R1 R2, (Generate sampleEnv sampleHasher []).record = some R1 ∧
      (Generate shiftedEnv smallMemoryHasher []).record = some R2 ∧
      Understands otherHasher R1 = true ∧ Understands otherHasher R2 = true := by
  refine ⟨rfl, rfl, fun _ _ _ _ _ k => List.length_replicate k 0, by decide, by decide,
    by decide, by decide, ?_⟩
  obtain ⟨R1, R2, a, b, _, _, _, _, c, d⟩ :=
    Generate_understood sampleEnv shiftedEnv sampleHasher smallMemoryHasher otherHasher [] []
      countingRand shiftedRand rfl rfl (fun _ _ _ _ _ k => List.length_replicate k 0)
      (fun _ _ _ _ _ k => List.length_replicate k 0) (by decide) (by decide) (by decide)
      (by decide)
  exact ⟨R1, R2, a, b, c, d⟩

end Kratos.Hash
